import Mathlib

/-!
Shallow embedding of the bio-aho-tagger dictionary tagger.

Texts are lists of characters.  The embedding covers: text normalization and
the longest-match scan driving `BioAhoTagger.extract_entities`
(src/bio_aho_tagger/bio_aho_tagger.py), the boundary acceptance test, the two
`merge_results` variants (bio_aho_tagger.py and chem.py), `load_automaton`
over abstract file stores, and the OPSIN batch resolution (opsin.py).
Python's stable `list.sort(key=...)` is modelled by stable insertion sort,
which produces the same list for the same total preorder on keys.
-/

/-- The Unicode right single quotation mark U+2019, which normalization folds
to the ASCII apostrophe (bio_aho_tagger.py:71 `text.lower().replace(...)`). -/
def rsquo : Char := Char.ofNat 8217

/-- The ASCII apostrophe, the replacement character of normalization. -/
def apos : Char := Char.ofNat 39

/-- `BioAhoTagger.stop_chars` (bio_aho_tagger.py:42). -/
def stop_chars : List Char := [' ', ',', '.', '\n', '\t', '<', '>', '(', ')', '/']

/-- Text normalization performed by `extract_entities` (bio_aho_tagger.py:71):
`text.lower().replace(U+2019, apostrophe)`.  Lowercasing is per character
(`Char.toLower`; the repository's dictionaries and claims only depend on
characters whose case mapping is one-to-one). -/
def normalizeText (t : List Char) : List Char :=
  (t.map Char.toLower).map fun c => if c = rsquo then apos else c

/-- A loaded automaton: the dictionary terms with their stored values.  In the
repository the value stored by `add_word` always carries the term itself as
first component (scripts/uniprot.py:127, scripts/EFO_disease.py:122,132), and
`extract_entities` reads it back as `original_value[0]`; the model keeps that
pair `(term, payload)` explicitly and leaves the rest of the value opaque. -/
abbrev Automaton (π : Type) := List (List Char × π)

/-- A span `(start_offset, end_offset_exclusive, payload)`. -/
abbrev Span (π : Type) := Nat × Nat × π

/-- `term` occurs in `t` starting at index `i`. -/
def occursAtP (term t : List Char) (i : Nat) : Prop :=
  (t.drop i).take term.length = term

instance (term t : List Char) (i : Nat) : Decidable (occursAtP term t i) := by
  unfold occursAtP; infer_instance

/-- Keep the candidate whose term is strictly longer (first one wins ties;
distinct terms of equal length can never both match at one position). -/
def pickLonger {π : Type} (b : Option (List Char × π)) (e : List Char × π) :
    Option (List Char × π) :=
  match b with
  | none => some e
  | some b => if b.1.length < e.1.length then some e else some b

/-- The longest dictionary term matching at position `i`, if any: the
longest-match selection of pyahocorasick's `Automaton.iter_long` (the library
scan invoked at bio_aho_tagger.py:75).  Only non-empty terms are considered
(`add_word` stores non-empty keys). -/
def bestAt {π : Type} (auto : Automaton π) (t : List Char) (i : Nat) :
    Option (List Char × π) :=
  (auto.filter fun e => decide (e.1 ≠ [] ∧ occursAtP e.1 t i)).foldl pickLonger none

/-- Longest-match scan: models pyahocorasick `Automaton.iter_long`, the scan
used by `BioAhoTagger.extract_entities` (bio_aho_tagger.py:75).  It yields
non-overlapping leftmost-longest matches as `(end_index, (term, payload))`,
resuming right after each reported match.  `fuel` bounds the recursion
structurally; `iterLong` supplies enough fuel for the whole text. -/
def iterLongAux {π : Type} (auto : Automaton π) (t : List Char) :
    Nat → Nat → List (Nat × (List Char × π))
  | 0, _ => []
  | fuel + 1, i =>
    if t.length ≤ i then []
    else
      match bestAt auto t i with
      | none => iterLongAux auto t fuel (i + 1)
      | some e => (i + e.1.length - 1, e) :: iterLongAux auto t fuel (i + e.1.length)

/-- The scan over the whole text (see `iterLongAux`). -/
def iterLong {π : Type} (auto : Automaton π) (t : List Char) :
    List (Nat × (List Char × π)) :=
  iterLongAux auto t (t.length + 1) 0

/-- Start index of a raw scan result `(end_index, (term, payload))`:
`end_index - len(term) + 1` (bio_aho_tagger.py:76), written in `Nat`. -/
def rawStart {π : Type} (p : Nat × (List Char × π)) : Nat :=
  p.1 + 1 - p.2.1.length

/-- Exclusive end offset of a raw scan result: `end_index + 1`. -/
def rawEnd {π : Type} (p : Nat × (List Char × π)) : Nat :=
  p.1 + 1

/-- `text[end_index + 1] if end_index + 1 < text_length else None`
(bio_aho_tagger.py:77). -/
def next_char (t : List Char) (e : Nat) : Option Char :=
  if e + 1 < t.length then t.get? (e + 1) else none

/-- `text[start_index - 1] if start_index > 0 else None`
(bio_aho_tagger.py:78). -/
def prev_char (t : List Char) (s : Nat) : Option Char :=
  if 0 < s then t.get? (s - 1) else none

/-- Python `c in chars` for an optional character (`None in ...` is false). -/
def optMem (c : Option Char) (chars : List Char) : Bool :=
  match c with
  | none => false
  | some c => chars.contains c

/-- The two right-boundary conjuncts of the acceptance test
(bio_aho_tagger.py:80-81). -/
def rightOk (t : List Char) (e : Nat) : Bool :=
  ((next_char t e).isNone || optMem (next_char t e) stop_chars
      || next_char t e == some ':')
    && !(optMem (next_char t e) ['>', '('] && e != 0)

/-- The two left-boundary conjuncts of the acceptance test
(bio_aho_tagger.py:82-83). -/
def leftOk (t : List Char) (s : Nat) : Bool :=
  ((prev_char t s).isNone || optMem (prev_char t s) stop_chars)
    && !(optMem (prev_char t s) ['<', ')'] && s != t.length - 1)

/-- The full boundary acceptance test of `extract_entities`
(bio_aho_tagger.py:79-84), for a match with start index `s` and (inclusive)
end index `e`. -/
def accept (t : List Char) (s e : Nat) : Bool :=
  rightOk t e && leftOk t s

/-- `BioAhoTagger.extract_entities` (bio_aho_tagger.py:70-87): normalize the
text, run the longest-match scan, keep the matches passing the boundary test,
and report them as `(start_index, end_index + 1, original_value)`.  The start
index `end_index - len(term) + 1` is written `e + 1 - len` in `Nat`. -/
def extract_entities {π : Type} (auto : Automaton π) (text : List Char) :
    List (Span (List Char × π)) :=
  let t := normalizeText text
  ((iterLong auto t).filter fun p => accept t (rawStart p) p.1).map
    fun p => (rawStart p, rawEnd p, p.2)

/-- Interval of `f` covers interval of `x`:
`f_start <= start and end <= f_end`. -/
def covers {π : Type} (f x : Span π) : Prop :=
  f.1 ≤ x.1 ∧ x.2.1 ≤ f.2.1

instance {π : Type} (f x : Span π) : Decidable (covers f x) := by
  unfold covers; infer_instance

/-- The "true substring" test of bio_aho_tagger.py:27-30: covering with a
different extent. -/
def sContains {π : Type} (f x : Span π) : Prop :=
  covers f x ∧ (f.1 ≠ x.1 ∨ f.2.1 ≠ x.2.1)

instance {π : Type} (f x : Span π) : Decidable (sContains f x) := by
  unfold sContains covers; infer_instance

/-- Python's sort key `(x[0], -(x[1] - x[0]))` as a total preorder: earlier
start first; at equal starts the longer span (larger end) first. -/
def spanLE {π : Type} (x y : Span π) : Prop :=
  x.1 < y.1 ∨ (x.1 = y.1 ∧ y.2.1 ≤ x.2.1)

instance {π : Type} : DecidableRel (@spanLE π) := fun x y => by
  unfold spanLE; infer_instance

instance {π : Type} : IsTotal (Span π) spanLE := by
  constructor
  intro a b
  rcases Nat.lt_trichotomy a.1 b.1 with h | h | h
  · exact Or.inl (Or.inl h)
  · rcases Nat.le_total b.2.1 a.2.1 with h2 | h2
    · exact Or.inl (Or.inr ⟨h, h2⟩)
    · exact Or.inr (Or.inr ⟨h.symm, h2⟩)
  · exact Or.inr (Or.inl h)

instance {π : Type} : IsTrans (Span π) spanLE := by
  constructor
  intro a b c hab hbc
  rcases hab with h | ⟨he, hl⟩
  · rcases hbc with h2 | ⟨he2, _⟩
    · exact Or.inl (h.trans h2)
    · exact Or.inl (he2 ▸ h)
  · rcases hbc with h2 | ⟨he2, hl2⟩
    · exact Or.inl (he ▸ h2)
    · exact Or.inr ⟨he.trans he2, hl2.trans hl⟩

/-- Flattening of the input lists (the comprehension / nested loops at the
start of both `merge_results` variants). -/
def pyFlatten {π : Type} (lists : List (List (Span π))) : List (Span π) :=
  lists.flatten

namespace bioTagger

/-- The filtering sweep of `merge_results` (bio_aho_tagger.py:24-35): skip a
candidate iff it is a true substring of an already kept match, else append.
The per-element unpacking/rebuilding of the payload triple in the Python code
is the identity on the payload, so the payload stays opaque here. -/
def sweep {π : Type} (acc : List (Span π)) : List (Span π) → List (Span π)
  | [] => acc
  | m :: rest =>
    if ∃ f ∈ acc, sContains f m then sweep acc rest
    else sweep (acc ++ [m]) rest

/-- `merge_results` (bio_aho_tagger.py:11-37): flatten, stable-sort by
`(start, -(length))`, then sweep. -/
def merge_results {π : Type} (lists : List (List (Span π))) : List (Span π) :=
  sweep [] (List.insertionSort spanLE (pyFlatten lists))

end bioTagger

namespace chem

/-- The filtering sweep of `merge_results` (chem.py:14-27): skip a candidate
iff it is fully contained (including identical extent) in a kept match; else
evict kept matches fully contained in the candidate and append it. -/
def sweep {π : Type} (acc : List (Span π)) : List (Span π) → List (Span π)
  | [] => acc
  | m :: rest =>
    if ∃ f ∈ acc, covers f m then sweep acc rest
    else sweep ((acc.filter fun ex => !decide (covers m ex)) ++ [m]) rest

/-- `merge_results` (chem.py:8-28): flatten, stable-sort by
`(start, -(length))`, then sweep with eviction. -/
def merge_results {π : Type} (lists : List (List (Span π))) : List (Span π) :=
  sweep [] (List.insertionSort spanLE (pyFlatten lists))

end chem

/-- Outcome of a Python call: a returned value (possibly `None`, modelled by
the `Option` inside) or a raised exception identified by its class name. -/
inductive PyResult (α : Type) where
  | returned : Option α → PyResult α
  | raised : String → PyResult α
deriving DecidableEq

/-- Whether a call outcome is a raised exception. -/
def PyResult.isRaised {α : Type} : PyResult α → Bool
  | PyResult.returned _ => false
  | PyResult.raised _ => true

/-- `built_in_dicts` (bio_aho_tagger.py:5-8). -/
def built_in_dicts : List (String × String) :=
  [("chembl_smiles", "chembl_smiles.pkl"),
   ("swissprot_rat_mouse_human", "swissprot_rat_mouse_human.pkl")]

/-- A source of pickled files, abstracting package resources and the file
system: `none` = file absent (`open` raises), `some none` = present but not a
valid pickle (`pickle.load` raises), `some (some a)` = unpickles to `a`. -/
abbrev FileStore (α : Type) := String → Option (Option α)

/-- File selection of `load_automaton`: a built-in dictionary name is read
from the package resources, any other name from the external file system
(bio_aho_tagger.py:56-65). -/
def fetch {α : Type} (res ext : FileStore α) (p : String) : Option (Option α) :=
  match built_in_dicts.lookup p with
  | some r => res r
  | none => ext p

/-- `BioAhoTagger.load_automaton` (bio_aho_tagger.py:47-65).  A falsy path
(`None` or the empty string) prints guidance and returns `None`; otherwise the
named file is opened and unpickled, raising on an absent or invalid file. -/
def load_automaton {α : Type} (res ext : FileStore α) (path : Option String) :
    PyResult α :=
  match path with
  | none => PyResult.returned none
  | some p =>
    if p = "" then PyResult.returned none
    else
      match fetch res ext p with
      | none => PyResult.raised "FileNotFoundError"
      | some none => PyResult.raised "UnpicklingError"
      | some (some a) => PyResult.returned (some a)

namespace opsin

/-- `name_to_structure` (opsin.py:17-23): call the resolver on one name; an
exception, a null result, or an empty string (`smiles or None`) all become
`none`, and nothing propagates. -/
def name_to_structure (resolver : String → Except String (Option String))
    (name : String) : String × Option String :=
  match resolver name with
  | Except.error _ => (name, none)
  | Except.ok none => (name, none)
  | Except.ok (some s) => (name, if s = "" then none else some s)

/-- `batch_process` (opsin.py:26-31): resolve every name and keep the truthy
results as a name-to-smiles mapping (association list in input order; the
thread pool's `map` preserves input order). -/
def batch_process (resolver : String → Except String (Option String))
    (names : List String) : List (String × String) :=
  (names.map (name_to_structure resolver)).filterMap fun p =>
    p.2.map fun s => (p.1, s)

end opsin

theorem foldl_pickLonger_mem {π : Type} :
    ∀ (l : List (List Char × π)) (acc : Option (List Char × π)) (e : List Char × π),
      l.foldl pickLonger acc = some e → e ∈ l ∨ acc = some e := by
  intro l
  induction l with
  | nil => intro acc e h; exact Or.inr h
  | cons a l ih =>
    intro acc e h
    rcases ih (pickLonger acc a) e h with h' | h'
    · exact Or.inl (List.mem_cons_of_mem a h')
    · cases acc with
      | none =>
        simp only [pickLonger, Option.some.injEq] at h'
        exact Or.inl (h' ▸ List.mem_cons_self a l)
      | some b =>
        by_cases hc : b.1.length < a.1.length
        · simp only [pickLonger, hc, if_true, Option.some.injEq] at h'
          exact Or.inl (h' ▸ List.mem_cons_self a l)
        · simp only [pickLonger, hc, if_false, Option.some.injEq] at h'
          exact Or.inr (congrArg some h')

theorem foldl_pickLonger_max {π : Type} :
    ∀ (l : List (List Char × π)) (acc : Option (List Char × π)) (e : List Char × π),
      l.foldl pickLonger acc = some e →
      (∀ x ∈ l, x.1.length ≤ e.1.length) ∧
        (∀ b, acc = some b → b.1.length ≤ e.1.length) := by
  intro l
  induction l with
  | nil =>
    intro acc e h
    refine ⟨by simp, fun b hb => ?_⟩
    rw [hb] at h
    cases Option.some.inj h
    exact Nat.le_refl _
  | cons a l ih =>
    intro acc e h
    obtain ⟨h1, h2⟩ := ih (pickLonger acc a) e h
    constructor
    · intro x hx
      rcases List.mem_cons.mp hx with rfl | hx'
      · cases acc with
        | none => exact h2 x rfl
        | some b =>
          by_cases hc : b.1.length < x.1.length
          · exact h2 x (by simp [pickLonger, hc])
          · exact Nat.le_trans (Nat.le_of_not_lt hc) (h2 b (by simp [pickLonger, hc]))
      · exact h1 x hx'
    · intro b hb
      cases acc with
      | none => cases hb
      | some b' =>
        cases Option.some.inj hb
        by_cases hc : b.1.length < a.1.length
        · exact Nat.le_trans (Nat.le_of_lt hc) (h2 a (by simp [pickLonger, hc]))
        · exact h2 b (by simp [pickLonger, hc])

theorem bestAt_some {π : Type} (auto : Automaton π) (t : List Char) (i : Nat)
    (e : List Char × π) (h : bestAt auto t i = some e) :
    e ∈ auto ∧ e.1 ≠ [] ∧ occursAtP e.1 t i ∧
      ∀ x ∈ auto, x.1 ≠ [] → occursAtP x.1 t i → x.1.length ≤ e.1.length := by
  unfold bestAt at h
  rcases foldl_pickLonger_mem _ none e h with hm | hm
  · obtain ⟨ha, hd⟩ := List.mem_filter.mp hm
    have hd' := of_decide_eq_true hd
    refine ⟨ha, hd'.1, hd'.2, ?_⟩
    intro x hx hxne hxocc
    exact (foldl_pickLonger_max _ none e h).1 x
      (List.mem_filter.mpr ⟨hx, decide_eq_true ⟨hxne, hxocc⟩⟩)
  · cases hm

theorem occursAtP_le {term t : List Char} {i : Nat}
    (hne : term ≠ []) (h : occursAtP term t i) : i + term.length ≤ t.length := by
  have hlen := congrArg List.length h
  simp only [List.length_take, List.length_drop] at hlen
  have hpos : 0 < term.length := List.length_pos.mpr hne
  omega

theorem iterLongAux_sound {π : Type} (auto : Automaton π) (t : List Char) :
    ∀ (fuel i : Nat) (p : Nat × (List Char × π)), p ∈ iterLongAux auto t fuel i →
      i ≤ rawStart p ∧ p.2 ∈ auto ∧ p.2.1 ≠ [] ∧ occursAtP p.2.1 t (rawStart p)
      ∧ rawEnd p = rawStart p + p.2.1.length ∧ rawEnd p ≤ t.length
      ∧ ∀ x ∈ auto, x.1 ≠ [] → occursAtP x.1 t (rawStart p) →
          x.1.length ≤ p.2.1.length := by
  intro fuel
  induction fuel with
  | zero => intro i p hp; simp [iterLongAux] at hp
  | succ fuel ih =>
    intro i p hp
    simp only [iterLongAux] at hp
    split at hp
    · simp at hp
    · cases hb : bestAt auto t i with
      | none =>
        rw [hb] at hp
        obtain ⟨h1, hrest⟩ := ih (i + 1) p hp
        exact ⟨Nat.le_trans (Nat.le_succ i) h1, hrest⟩
      | some e =>
        rw [hb] at hp
        obtain ⟨hmem, hne, hocc, hmax⟩ := bestAt_some auto t i e hb
        have hL : 0 < e.1.length := List.length_pos.mpr hne
        rcases List.mem_cons.mp hp with rfl | htail
        · have hrs : rawStart (i + e.1.length - 1, e) = i := by
            simp only [rawStart]; omega
          have hre : rawEnd (i + e.1.length - 1, e) = i + e.1.length := by
            simp only [rawEnd]; omega
          refine ⟨Nat.le_of_eq hrs.symm, hmem, hne, ?_, ?_, ?_, ?_⟩
          · rw [hrs]; exact hocc
          · rw [hrs, hre]
          · rw [hre]; exact occursAtP_le hne hocc
          · rw [hrs]; exact hmax
        · obtain ⟨h1, hrest⟩ := ih (i + e.1.length) p htail
          exact ⟨Nat.le_trans (Nat.le_add_right i e.1.length) h1, hrest⟩

theorem iterLongAux_chain {π : Type} (auto : Automaton π) (t : List Char) :
    ∀ (fuel i : Nat),
      (iterLongAux auto t fuel i).Pairwise fun a b => rawEnd a ≤ rawStart b := by
  intro fuel
  induction fuel with
  | zero => intro i; simp [iterLongAux]
  | succ fuel ih =>
    intro i
    simp only [iterLongAux]
    split
    · exact List.Pairwise.nil
    · cases hb : bestAt auto t i with
      | none => exact ih (i + 1)
      | some e =>
        refine List.Pairwise.cons ?_ (ih _)
        intro q hq
        have hs := iterLongAux_sound auto t fuel (i + e.1.length) q hq
        have hne := (bestAt_some auto t i e hb).2.1
        have hL : 0 < e.1.length := List.length_pos.mpr hne
        have hre : rawEnd (i + e.1.length - 1, e) = i + e.1.length := by
          simp only [rawEnd]; omega
        rw [hre]
        exact hs.1

theorem iterLong_sound {π : Type} (auto : Automaton π) (t : List Char)
    (p : Nat × (List Char × π)) (hp : p ∈ iterLong auto t) :
    p.2 ∈ auto ∧ p.2.1 ≠ [] ∧ occursAtP p.2.1 t (rawStart p)
    ∧ rawEnd p = rawStart p + p.2.1.length ∧ rawEnd p ≤ t.length
    ∧ ∀ x ∈ auto, x.1 ≠ [] → occursAtP x.1 t (rawStart p) →
        x.1.length ≤ p.2.1.length :=
  (iterLongAux_sound auto t (t.length + 1) 0 p hp).2

theorem iterLong_chain {π : Type} (auto : Automaton π) (t : List Char) :
    (iterLong auto t).Pairwise fun a b => rawEnd a ≤ rawStart b :=
  iterLongAux_chain auto t (t.length + 1) 0

/-- C1 is false as stated: with dictionary {"ab", "abc"}, the Term "ab" occurs
in the text "abc" ending at input position 1, yet the scan underlying
`extract_entities` yields no raw result there — its whole output is the single
longest match ending at position 2, so an occurrence is omitted before
boundary filtering. -/
theorem C1_counterexample :
    ((['a','b'], (0 : Nat)) ∈ ([(['a','b'], 0), (['a','b','c'], 1)] : Automaton Nat))
    ∧ occursAtP ['a','b'] ['a','b','c'] 0
    ∧ iterLong ([(['a','b'], 0), (['a','b','c'], 1)] : Automaton Nat) ['a','b','c']
        = [(2, (['a','b','c'], 1))] := by decide

/-- C1 (amended): the scan underlying `extract_entities` is a longest-match
iteration, not an all-occurrences scan: every raw result is a genuine
occurrence of a dictionary Term ending at that input position, each reported
match is a longest dictionary match at its start position, and the raw results
are pairwise non-overlapping in increasing position order; occurrences of
Terms overlapped by a longer selected match are omitted. -/
theorem C1_scan_longest_matches :
    (∀ (π : Type) (auto : Automaton π) (t : List Char)
        (p : Nat × (List Char × π)), p ∈ iterLong auto t →
          p.2 ∈ auto ∧ p.2.1 ≠ [] ∧ occursAtP p.2.1 t (rawStart p) ∧
            ∀ x ∈ auto, x.1 ≠ [] → occursAtP x.1 t (rawStart p) →
              x.1.length ≤ p.2.1.length)
    ∧ ∀ (π : Type) (auto : Automaton π) (t : List Char),
        (iterLong auto t).Pairwise fun a b => rawEnd a ≤ rawStart b := by
  constructor
  · intro π auto t p hp
    obtain ⟨h1, h2, h3, -, -, h6⟩ := iterLong_sound auto t p hp
    exact ⟨h1, h2, h3, h6⟩
  · intro π auto t
    exact iterLong_chain auto t

/-- Witness for `C1_scan_longest_matches` at a concrete automaton and text. -/
theorem C1_scan_longest_matches_witness :
    ((0, (['a'], 0)) ∈ iterLong [(['a'], (0 : Nat))] ['a'])
    ∧ ((['a'], (0 : Nat)) ∈ ([(['a'], 0)] : Automaton Nat)
        ∧ (['a'] : List Char) ≠ []
        ∧ occursAtP ['a'] ['a'] (rawStart ((0 : Nat), (['a'], (0 : Nat))))) := by
  have h := C1_scan_longest_matches.1 Nat [(['a'], 0)] ['a'] (0, (['a'], 0)) (by decide)
  exact ⟨by decide, h.1, h.2.1, h.2.2.1⟩

/-- C6 (confirmed): every span `(start, end, payload)` returned by
`extract_entities` satisfies: the payload is a stored dictionary entry, and
the substring `[start, end)` of the normalized text equals the matched Term
carried as the payload's first component. -/
theorem C6_extract_substring :
    ∀ (π : Type) (auto : Automaton π) (text : List Char) (s en : Nat)
      (v : List Char × π), (s, en, v) ∈ extract_entities auto text →
        v ∈ auto ∧ en - s = v.1.length
        ∧ ((normalizeText text).drop s).take (en - s) = v.1 := by
  intro π auto text s en v hmem
  simp only [extract_entities, List.mem_map, List.mem_filter] at hmem
  obtain ⟨p, ⟨hp, -⟩, heq⟩ := hmem
  injection heq with h1 h2
  injection h2 with h2 h3
  subst h1; subst h2; subst h3
  obtain ⟨ha, hne, hocc, hlen, -, -⟩ := iterLong_sound auto (normalizeText text) p hp
  have hL : 0 < p.2.1.length := List.length_pos.mpr hne
  refine ⟨ha, by omega, ?_⟩
  have he : rawEnd p - rawStart p = p.2.1.length := by omega
  rw [he]
  exact hocc

/-- Witness for `C6_extract_substring` at a concrete automaton and text. -/
theorem C6_extract_substring_witness :
    ((0, 1, (['a'], (0 : Nat))) ∈ extract_entities [(['a'], 0)] ['a'])
    ∧ ((['a'], (0 : Nat)) ∈ ([(['a'], 0)] : Automaton Nat)
        ∧ 1 - 0 = (['a'] : List Char).length
        ∧ ((normalizeText ['a']).drop 0).take (1 - 0) = ['a']) := by
  have h := C6_extract_substring Nat [(['a'], 0)] ['a'] 0 1 (['a'], 0) (by decide)
  exact ⟨by decide, h⟩

/-- C10 (confirmed): the span list returned by `extract_entities` has strictly
increasing start offsets, is pairwise non-overlapping (each span's end offset
is at most the next span's start offset), and every span lies within the
normalized text: `start < end ≤ length`. -/
theorem C10_extract_invariants :
    ∀ (π : Type) (auto : Automaton π) (text : List Char),
      ((extract_entities auto text).Pairwise fun a b => a.1 < b.1 ∧ a.2.1 ≤ b.1)
      ∧ ∀ q ∈ extract_entities auto text,
          q.1 < q.2.1 ∧ q.2.1 ≤ (normalizeText text).length := by
  intro π auto text
  constructor
  · simp only [extract_entities]
    refine List.pairwise_map.mpr (List.Pairwise.imp_of_mem ?_
      (List.Pairwise.sublist (List.filter_sublist _) (iterLong_chain auto _)))
    intro a b ha hb hr
    obtain ⟨-, hne, -, hlen, -, -⟩ :=
      iterLong_sound auto (normalizeText text) a (List.mem_of_mem_filter ha)
    have hL : 0 < a.2.1.length := List.length_pos.mpr hne
    exact ⟨by omega, hr⟩
  · intro q hq
    simp only [extract_entities, List.mem_map, List.mem_filter] at hq
    obtain ⟨p, ⟨hp, -⟩, heq⟩ := hq
    obtain ⟨-, hne, -, hlen, hbound, -⟩ :=
      iterLong_sound auto (normalizeText text) p hp
    have hL : 0 < p.2.1.length := List.length_pos.mpr hne
    subst heq
    exact ⟨by simp only [rawStart, rawEnd] at hlen ⊢; omega, hbound⟩

/-- Witness for `C10_extract_invariants` at a concrete automaton and text. -/
theorem C10_extract_invariants_witness :
    ((0, 1, (['a'], (0 : Nat))) ∈ extract_entities [(['a'], 0)] ['a'])
    ∧ ((0 : Nat) < 1 ∧ 1 ≤ (normalizeText ['a']).length) := by
  have h := (C10_extract_invariants Nat [(['a'], 0)] ['a']).2 (0, 1, (['a'], 0))
    (by decide)
  exact ⟨by decide, h⟩

/-- C2 is false as stated: with dictionary {"ab"} and text "ab>", the raw
match starts at text position 0 and is followed by `>`, and its left boundary
holds, so the claim says it is accepted; the code rejects it (the exception
tests `end_index != 0`, and here the match ends at index 1), so
`extract_entities` returns nothing. -/
theorem C2_counterexample :
    iterLong [(['a','b'], (0 : Nat))] (normalizeText ['a','b','>'])
        = [(1, (['a','b'], 0))]
    ∧ rawStart ((1 : Nat), (['a','b'], (0 : Nat))) = 0
    ∧ next_char (normalizeText ['a','b','>']) 1 = some '>'
    ∧ leftOk (normalizeText ['a','b','>']) 0 = true
    ∧ accept (normalizeText ['a','b','>']) 0 1 = false
    ∧ extract_entities [(['a','b'], (0 : Nat))] ['a','b','>'] = [] := by decide

/-- C2 (amended): when the character immediately following a raw match is `>`
or `(`, the match is accepted if and only if it ends at input index 0 — that
is, only a single-character match at the very start of the text tolerates a
trailing `>` or `(` (the code tests `end_index != 0`, not the start offset);
the left-boundary condition must also hold. -/
theorem C2_right_boundary :
    ∀ (t : List Char) (s e : Nat),
      next_char t e = some '>' ∨ next_char t e = some '(' →
      (accept t s e = true ↔ (e = 0 ∧ leftOk t s = true)) := by
  intro t s e h
  have h1 : optMem (next_char t e) stop_chars = true := by
    rcases h with h | h <;> rw [h] <;> rfl
  have h2 : optMem (next_char t e) ['>', '('] = true := by
    rcases h with h | h <;> rw [h] <;> rfl
  simp only [accept, rightOk, h1, h2, Bool.or_true, Bool.true_or, Bool.true_and,
    bne, Bool.not_not, Bool.and_eq_true, beq_iff_eq]

/-- Witness for `C2_right_boundary` at a concrete text and match. -/
theorem C2_right_boundary_witness :
    (next_char ['a', '>'] 0 = some '>' ∨ next_char ['a', '>'] 0 = some '(')
    ∧ (accept ['a', '>'] 0 0 = true ↔ (0 = 0 ∧ leftOk ['a', '>'] 0 = true)) := by
  have h := C2_right_boundary ['a', '>'] 0 0 (Or.inl (by decide))
  exact ⟨Or.inl (by decide), h⟩

/-- C5 is false as stated: with dictionary {"ab"} and text "x<ab", the raw
match ends at the text's final position and is preceded by `<`, and its right
boundary holds, so the claim says it is accepted; the code rejects it (the
exception tests `start_index != text_length - 1`, and here the match starts at
index 2 of a length-4 text), so `extract_entities` returns nothing. -/
theorem C5_counterexample :
    iterLong [(['a','b'], (0 : Nat))] (normalizeText ['x','<','a','b'])
        = [(3, (['a','b'], 0))]
    ∧ (3 : Nat) = (normalizeText ['x','<','a','b']).length - 1
    ∧ prev_char (normalizeText ['x','<','a','b']) 2 = some '<'
    ∧ rightOk (normalizeText ['x','<','a','b']) 3 = true
    ∧ accept (normalizeText ['x','<','a','b']) 2 3 = false
    ∧ extract_entities [(['a','b'], (0 : Nat))] ['x','<','a','b'] = [] := by decide

/-- C5 (amended): when the character immediately preceding a raw match is `<`
or `)`, the match is accepted if and only if it starts at the text's final
index — that is, only a single-character match at the very end of the text
tolerates a preceding `<` or `)` (the code tests
`start_index != text_length - 1`, not the end offset), the right-boundary
condition also holding; and an absent preceding character (start of text) or a
preceding stop character other than `<` and `)` always satisfies the left
boundary. -/
theorem C5_left_boundary :
    (∀ (t : List Char) (s e : Nat),
        prev_char t s = some '<' ∨ prev_char t s = some ')' →
        (accept t s e = true ↔ (s = t.length - 1 ∧ rightOk t e = true)))
    ∧ ∀ (t : List Char) (s : Nat),
        (prev_char t s = none
          ∨ ∃ c, prev_char t s = some c ∧ c ∈ stop_chars ∧ c ≠ '<' ∧ c ≠ ')') →
        leftOk t s = true := by
  constructor
  · intro t s e h
    have h1 : optMem (prev_char t s) stop_chars = true := by
      rcases h with h | h <;> rw [h] <;> rfl
    have h2 : optMem (prev_char t s) ['<', ')'] = true := by
      rcases h with h | h <;> rw [h] <;> rfl
    simp only [accept, leftOk, h1, h2, Bool.or_true, Bool.true_or, Bool.true_and,
      bne, Bool.not_not, Bool.and_eq_true, beq_iff_eq]
    exact ⟨fun ⟨a, b⟩ => ⟨b, a⟩, fun ⟨a, b⟩ => ⟨b, a⟩⟩
  · intro t s h
    rcases h with h | ⟨c, hc, hmem, hne1, hne2⟩
    · simp [leftOk, h, optMem]
    · have hcont : optMem (prev_char t s) stop_chars = true := by
        rw [hc]
        exact List.elem_iff.mpr hmem
      have hexc : optMem (prev_char t s) ['<', ')'] = false := by
        rw [hc]
        show (['<', ')'] : List Char).contains c = false
        simp
        exact ⟨hne1, hne2⟩
      simp [leftOk, hcont, hexc]

/-- Witness for `C5_left_boundary` at concrete texts and matches: a
single-character match at the end of "<a" preceded by `<`, a match at the
start of the text (no preceding character), and a match preceded by a space. -/
theorem C5_left_boundary_witness :
    (prev_char ['<', 'a'] 1 = some '<' ∨ prev_char ['<', 'a'] 1 = some ')')
    ∧ (accept ['<', 'a'] 1 1 = true
        ↔ (1 = (['<', 'a'] : List Char).length - 1 ∧ rightOk ['<', 'a'] 1 = true))
    ∧ leftOk ['a', 'b'] 0 = true
    ∧ leftOk ['a', ' ', 'b'] 2 = true := by
  have h1 := C5_left_boundary.1 ['<', 'a'] 1 1 (Or.inl (by decide))
  have h2 := C5_left_boundary.2 ['a', 'b'] 0 (Or.inl (by decide))
  have h3 := C5_left_boundary.2 ['a', ' ', 'b'] 2
    (Or.inr ⟨' ', by decide, by decide, by decide, by decide⟩)
  exact ⟨Or.inl (by decide), h1, h2, h3⟩

theorem not_sContains_of_spanLE {π : Type} {a b : Span π} (h : spanLE a b) :
    ¬ sContains b a := by
  rintro ⟨⟨hle, hge⟩, hne⟩
  rcases h with h | ⟨he, hl⟩
  · omega
  · rcases hne with hne | hne <;> omega

theorem bioTagger.sweep_mem_acc {π : Type} :
    ∀ (l acc : List (Span π)) (x : Span π), x ∈ acc → x ∈ bioTagger.sweep acc l := by
  intro l
  induction l with
  | nil => intro acc x hx; simpa [bioTagger.sweep] using hx
  | cons m rest ih =>
    intro acc x hx
    simp only [bioTagger.sweep]
    split
    · exact ih acc x hx
    · exact ih (acc ++ [m]) x (List.mem_append_left _ hx)

theorem bioTagger.sweep_noContain {π : Type} :
    ∀ (l acc : List (Span π)),
      l.Pairwise (fun a b => ¬ sContains b a) →
      (∀ x ∈ acc, ∀ y ∈ acc, ¬ sContains x y) →
      (∀ y ∈ l, ∀ x ∈ acc, ¬ sContains y x) →
      ∀ x ∈ bioTagger.sweep acc l, ∀ y ∈ bioTagger.sweep acc l, ¬ sContains x y := by
  intro l
  induction l with
  | nil =>
    intro acc _ inv1 _
    simpa [bioTagger.sweep] using inv1
  | cons m rest ih =>
    intro acc hpw inv1 inv2
    rw [List.pairwise_cons] at hpw
    obtain ⟨hhead, hrest⟩ := hpw
    simp only [bioTagger.sweep]
    split
    · exact ih acc hrest inv1 (fun y hy => inv2 y (List.mem_cons_of_mem m hy))
    · rename_i hno
      push_neg at hno
      refine ih (acc ++ [m]) hrest ?_ ?_
      · intro x hx y hy
        rcases List.mem_append.mp hx with hx | hx
        · rcases List.mem_append.mp hy with hy | hy
          · exact inv1 x hx y hy
          · rw [List.mem_singleton.mp hy]
            exact hno x hx
        · rw [List.mem_singleton.mp hx]
          rcases List.mem_append.mp hy with hy | hy
          · exact inv2 m (List.mem_cons_self m rest) y hy
          · rw [List.mem_singleton.mp hy]
            rintro ⟨-, hne | hne⟩ <;> exact hne rfl
      · intro y hy x hx
        rcases List.mem_append.mp hx with hx | hx
        · exact inv2 y (List.mem_cons_of_mem m hy) x hx
        · rw [List.mem_singleton.mp hx]
          exact hhead y hy

theorem bioTagger.merge_noContain {π : Type} (lists : List (List (Span π))) :
    ∀ x ∈ bioTagger.merge_results lists, ∀ y ∈ bioTagger.merge_results lists,
      ¬ sContains x y := by
  have hsorted : (List.insertionSort spanLE (pyFlatten lists)).Pairwise spanLE :=
    List.sorted_insertionSort spanLE (pyFlatten lists)
  have hpw : (List.insertionSort spanLE (pyFlatten lists)).Pairwise
      fun a b => ¬ sContains b a :=
    hsorted.imp not_sContains_of_spanLE
  exact bioTagger.sweep_noContain _ [] hpw (by simp) (by simp)

theorem chem.sweep_noContain_evict {π : Type} :
    ∀ (l acc : List (Span π)),
      (∀ x ∈ acc, ∀ y ∈ acc, ¬ sContains x y) →
      ∀ x ∈ chem.sweep acc l, ∀ y ∈ chem.sweep acc l, ¬ sContains x y := by
  intro l
  induction l with
  | nil => intro acc inv1; simpa [chem.sweep] using inv1
  | cons m rest ih =>
    intro acc inv1
    simp only [chem.sweep]
    split
    · exact ih acc inv1
    · rename_i hno
      push_neg at hno
      refine ih _ ?_
      intro x hx y hy
      rcases List.mem_append.mp hx with hx | hx
      · obtain ⟨hxa, -⟩ := List.mem_filter.mp hx
        rcases List.mem_append.mp hy with hy | hy
        · obtain ⟨hya, -⟩ := List.mem_filter.mp hy
          exact inv1 x hxa y hya
        · rw [List.mem_singleton.mp hy]
          intro hc
          exact hno x hxa hc.1
      · rw [List.mem_singleton.mp hx]
        rcases List.mem_append.mp hy with hy | hy
        · obtain ⟨-, hyf⟩ := List.mem_filter.mp hy
          intro hc
          have hnc : ¬ covers m y := by simpa using hyf
          exact hnc hc.1
        · rw [List.mem_singleton.mp hy]
          rintro ⟨-, hne | hne⟩ <;> exact hne rfl

theorem chem.merge_noContain_evict {π : Type} (lists : List (List (Span π))) :
    ∀ x ∈ chem.merge_results lists, ∀ y ∈ chem.merge_results lists,
      ¬ sContains x y :=
  chem.sweep_noContain_evict _ [] (by simp)

/-- C4 (confirmed): in the output of either `merge_results` variant, no two
spans stand in strict containment — whenever one output span's interval covers
another's, their offsets are exactly identical. -/
theorem C4_merge_no_containment :
    ∀ (π : Type) (lists : List (List (Span π))),
      (∀ x ∈ bioTagger.merge_results lists, ∀ y ∈ bioTagger.merge_results lists,
        ¬ sContains x y)
      ∧ (∀ x ∈ chem.merge_results lists, ∀ y ∈ chem.merge_results lists,
        ¬ sContains x y) :=
  fun _ lists => ⟨bioTagger.merge_noContain lists, chem.merge_noContain_evict lists⟩

/-- Witness for `C4_merge_no_containment` at a concrete input. -/
theorem C4_merge_no_containment_witness :
    ((0, 5, (0 : Nat)) ∈ bioTagger.merge_results [[(0, 5, 0)]])
    ∧ ¬ sContains ((0, 5, (0 : Nat)) : Span Nat) (0, 5, 0) := by
  have h := (C4_merge_no_containment Nat [[(0, 5, 0)]]).1 (0, 5, 0) (by decide)
    (0, 5, 0) (by decide)
  exact ⟨by decide, h⟩

theorem bioTagger.sweep_retain {π : Type} :
    ∀ (l acc : List (Span π)) (x : Span π), x ∈ l →
      (∀ f ∈ acc, ¬ sContains f x) → (∀ f ∈ l, ¬ sContains f x) →
      x ∈ bioTagger.sweep acc l := by
  intro l
  induction l with
  | nil => intro acc x hx; cases hx
  | cons m rest ih =>
    intro acc x hx hacc hl
    simp only [bioTagger.sweep]
    split
    · rename_i hex
      rcases List.mem_cons.mp hx with rfl | hx'
      · obtain ⟨f, hf, hc⟩ := hex
        exact absurd hc (hacc f hf)
      · exact ih acc x hx' hacc (fun f hf => hl f (List.mem_cons_of_mem m hf))
    · rcases List.mem_cons.mp hx with rfl | hx'
      · exact bioTagger.sweep_mem_acc rest (acc ++ [x]) x
          (List.mem_append_right _ (List.mem_singleton.mpr rfl))
      · refine ih (acc ++ [m]) x hx' ?_ (fun f hf => hl f (List.mem_cons_of_mem m hf))
        intro f hf
        rcases List.mem_append.mp hf with hf | hf
        · exact hacc f hf
        · rw [List.mem_singleton.mp hf]
          exact hl m (List.mem_cons_self m rest)

/-- C3 is false as stated for the `chem.py` merge variant: given two input
spans with identical offsets (0, 5) and different payloads, that variant's
containment test has no different-extent exception, so it keeps only the first
span and drops the second. -/
theorem C3_counterexample :
    chem.merge_results [[(0, 5, 0)], [(0, 5, 1)]] = [(0, 5, (0 : Nat))]
    ∧ ((0, 5, 1) : Span Nat) ∉ chem.merge_results [[(0, 5, 0)], [(0, 5, 1)]] := by
  decide

/-- C3 (amended): in the `bio_aho_tagger.py` merge, equal-offset spans never
displace one another: any input span that is not a true substring of a
different-extent input span appears in the output — in particular two spans
with identical offsets and different payloads both survive, as the concrete
instance shows.  The `chem.py` variant instead keeps only the first of two
identical-offset spans (see the counterexample). -/
theorem C3_tie_retention :
    (∀ (π : Type) (lists : List (List (Span π))) (x : Span π),
        x ∈ pyFlatten lists → (∀ y ∈ pyFlatten lists, ¬ sContains y x) →
        x ∈ bioTagger.merge_results lists)
    ∧ bioTagger.merge_results [[(0, 5, 0)], [(0, 5, 1)]]
        = [(0, 5, (0 : Nat)), (0, 5, 1)] := by
  constructor
  · intro π lists x hx hnc
    have hperm := List.perm_insertionSort spanLE (pyFlatten lists)
    refine bioTagger.sweep_retain _ [] x (hperm.mem_iff.mpr hx) (by simp) ?_
    intro f hf
    exact hnc f (hperm.mem_iff.mp hf)
  · decide

/-- Witness for `C3_tie_retention` at a concrete input. -/
theorem C3_tie_retention_witness :
    ((0, 5, (0 : Nat)) ∈ pyFlatten [[(0, 5, 0)], [(0, 5, 1)]])
    ∧ (0, 5, (0 : Nat)) ∈ bioTagger.merge_results [[(0, 5, 0)], [(0, 5, 1)]] := by
  have h := C3_tie_retention.1 Nat [[(0, 5, 0)], [(0, 5, 1)]] (0, 5, 0)
    (by decide) (by decide)
  exact ⟨by decide, h⟩

/-- C7 is false as stated: loading with no dictionary given (path `None` — an
absent serialized dictionary) does not signal any error: `load_automaton`
prints guidance and returns `None`, a value that is silently unusable as an
automaton. -/
theorem C7_counterexample :
    load_automaton (α := Nat) (fun _ => none) (fun _ => none) none
      = PyResult.returned none
    ∧ (load_automaton (α := Nat) (fun _ => none) (fun _ => none) none).isRaised
      = false := ⟨rfl, rfl⟩

/-- C7 (amended): when a non-empty dictionary path is given, an absent file
raises `FileNotFoundError`, a present but invalid pickle raises an unpickling
error, and a valid pickle is returned — the raised exceptions are the built-in
ones, not a dedicated `LoadError`; but when no path is given (`None` or the
empty string), the loader prints guidance and returns `None` without
signaling any error. -/
theorem C7_load_behavior :
    ∀ (α : Type) (res ext : FileStore α),
      load_automaton res ext none = PyResult.returned none
      ∧ load_automaton res ext (some "") = PyResult.returned none
      ∧ ∀ p : String, p ≠ "" →
          (fetch res ext p = none →
            load_automaton res ext (some p) = PyResult.raised "FileNotFoundError")
          ∧ (fetch res ext p = some none →
            load_automaton res ext (some p) = PyResult.raised "UnpicklingError")
          ∧ ∀ a, fetch res ext p = some (some a) →
            load_automaton res ext (some p) = PyResult.returned (some a) := by
  intro α res ext
  refine ⟨rfl, rfl, ?_⟩
  intro p hp
  refine ⟨fun h => ?_, fun h => ?_, fun a h => ?_⟩ <;>
    simp [load_automaton, hp, h]

/-- Witness for `C7_load_behavior` at concrete stores and a concrete path. -/
theorem C7_load_behavior_witness :
    ("x" : String) ≠ ""
    ∧ load_automaton (α := Nat) (fun _ => none) (fun _ => none) (some "x")
        = PyResult.raised "FileNotFoundError" := by
  have h := ((C7_load_behavior Nat (fun _ => none) (fun _ => none)).2.2 "x"
    (by decide)).1 rfl
  exact ⟨by decide, h⟩

/-- C8 (confirmed): `extract_entities` and both `merge_results` variants are
total in this embedding (no exception paths exist); the empty string yields
the empty result list, and merging no lists or only empty lists yields the
empty annotation set. -/
theorem C8_empty_inputs :
    (∀ (π : Type) (auto : Automaton π), extract_entities auto [] = [])
    ∧ bioTagger.merge_results ([] : List (List (Span Nat))) = []
    ∧ chem.merge_results ([] : List (List (Span Nat))) = []
    ∧ (∀ (π : Type) (lists : List (List (Span π))), (∀ l ∈ lists, l = []) →
        bioTagger.merge_results lists = [])
    ∧ (∀ (π : Type) (lists : List (List (Span π))), (∀ l ∈ lists, l = []) →
        chem.merge_results lists = []) := by
  refine ⟨fun π auto => rfl, rfl, rfl, ?_, ?_⟩
  · intro π lists h
    unfold bioTagger.merge_results
    rw [show pyFlatten lists = [] from List.flatten_eq_nil_iff.mpr h]
    rfl
  · intro π lists h
    unfold chem.merge_results
    rw [show pyFlatten lists = [] from List.flatten_eq_nil_iff.mpr h]
    rfl

/-- Witness for `C8_empty_inputs` on concrete all-empty input lists. -/
theorem C8_empty_inputs_witness :
    bioTagger.merge_results ([[], []] : List (List (Span Nat))) = []
    ∧ chem.merge_results ([[], []] : List (List (Span Nat))) = [] :=
  ⟨C8_empty_inputs.2.2.2.1 Nat [[], []] (by decide),
    C8_empty_inputs.2.2.2.2 Nat [[], []] (by decide)⟩

theorem opsin.nts_fst (r : String → Except String (Option String)) (n : String) :
    (opsin.name_to_structure r n).1 = n := by
  unfold opsin.name_to_structure
  cases r n with
  | error e => rfl
  | ok s =>
    cases s with
    | none => rfl
    | some s => rfl

theorem opsin.batch_cons_none (r : String → Except String (Option String))
    {n : String} (rest : List String)
    (h : (opsin.name_to_structure r n).2 = none) :
    opsin.batch_process r (n :: rest) = opsin.batch_process r rest := by
  unfold opsin.batch_process
  simp [List.filterMap_cons, h]

theorem opsin.batch_cons_some (r : String → Except String (Option String))
    {n s : String} (rest : List String)
    (h : (opsin.name_to_structure r n).2 = some s) :
    opsin.batch_process r (n :: rest) = (n, s) :: opsin.batch_process r rest := by
  unfold opsin.batch_process
  simp [List.filterMap_cons, h, opsin.nts_fst]

theorem opsin.batch_not_mem_of_fail (r : String → Except String (Option String))
    (bad : String) (hbad : (opsin.name_to_structure r bad).2 = none) :
    ∀ (names : List String) (smi : String),
      (bad, smi) ∉ opsin.batch_process r names := by
  intro names
  induction names with
  | nil => intro smi h; simp [opsin.batch_process] at h
  | cons n rest ih =>
    intro smi h
    cases hn : (opsin.name_to_structure r n).2 with
    | none =>
      rw [opsin.batch_cons_none r rest hn] at h
      exact ih smi h
    | some s =>
      rw [opsin.batch_cons_some r rest hn] at h
      rcases List.mem_cons.mp h with he | h'
      · injection he with h1 h2
        rw [h1] at hbad
        rw [hbad] at hn
        cases hn
      · exact ih smi h'

theorem opsin.batch_lookup_filter (r : String → Except String (Option String))
    (bad : String) (hbad : (opsin.name_to_structure r bad).2 = none) :
    ∀ (names : List String) (m : String), m ≠ bad →
      List.lookup m (opsin.batch_process r names)
        = List.lookup m (opsin.batch_process r
            (names.filter fun n => !(n == bad))) := by
  intro names
  induction names with
  | nil => intro m hm; rfl
  | cons n rest ih =>
    intro m hm
    by_cases hn : n = bad
    · subst hn
      have hf : (n :: rest).filter (fun x => !(x == n))
          = rest.filter fun x => !(x == n) := by
        simp [List.filter_cons]
      rw [opsin.batch_cons_none r rest hbad, hf]
      exact ih m hm
    · have hf : (n :: rest).filter (fun x => !(x == bad))
          = n :: rest.filter fun x => !(x == bad) := by
        simp [List.filter_cons, hn]
      rw [hf]
      cases hs : (opsin.name_to_structure r n).2 with
      | none =>
        rw [opsin.batch_cons_none r rest hs, opsin.batch_cons_none r _ hs]
        exact ih m hm
      | some s =>
        rw [opsin.batch_cons_some r rest hs, opsin.batch_cons_some r _ hs]
        cases hmn : m == n with
        | true => simp [List.lookup, hmn]
        | false =>
          simp only [List.lookup, hmn]
          exact ih m hm

/-- C9 (confirmed): a resolver failure on one name (an exception, a null
result, or an empty string) makes exactly that name resolve to nothing: it is
excluded from the batch mapping, nothing propagates to the batch caller (the
batch function is total), and every other name's entry is exactly what it
would be had the failing name not been in the batch. -/
theorem C9_batch_isolation :
    ∀ (resolver : String → Except String (Option String)) (names : List String)
      (bad : String),
      ((∃ err, resolver bad = Except.error err) ∨ resolver bad = Except.ok none
        ∨ resolver bad = Except.ok (some "")) →
      (∀ smi : String, (bad, smi) ∉ opsin.batch_process resolver names)
      ∧ ∀ m : String, m ≠ bad →
          List.lookup m (opsin.batch_process resolver names)
            = List.lookup m (opsin.batch_process resolver
                (names.filter fun n => !(n == bad))) := by
  intro resolver names bad hfail
  have hbad : (opsin.name_to_structure resolver bad).2 = none := by
    rcases hfail with ⟨err, h⟩ | h | h <;> simp [opsin.name_to_structure, h]
  exact ⟨opsin.batch_not_mem_of_fail resolver bad hbad names,
    opsin.batch_lookup_filter resolver bad hbad names⟩

/-- Witness for `C9_batch_isolation` at a concrete resolver and batch. -/
theorem C9_batch_isolation_witness :
    (("bad", "x")
        ∉ opsin.batch_process
            (fun n => if n = "bad" then Except.error "boom" else Except.ok (some "smi"))
            ["a", "bad"])
    ∧ List.lookup "a"
        (opsin.batch_process
          (fun n => if n = "bad" then Except.error "boom" else Except.ok (some "smi"))
          ["a", "bad"])
      = List.lookup "a"
        (opsin.batch_process
          (fun n => if n = "bad" then Except.error "boom" else Except.ok (some "smi"))
          (["a", "bad"].filter fun n => !(n == "bad"))) := by
  have h := C9_batch_isolation
    (fun n => if n = "bad" then Except.error "boom" else Except.ok (some "smi"))
    ["a", "bad"] "bad" (Or.inl ⟨"boom", rfl⟩)
  exact ⟨h.1 "x", h.2 "a" (by decide)⟩
